import Mathlib

/-!
Verification of the `garlic_netstring` decoder
(`src/garlic_netstring/src/lib.rs`).

The byte stream is modelled as a `List Nat` of the bytes not yet read:
each successful one-byte read removes the head of the list, matching the
monotone position advance of the `Read` cursor.  A failed `read_exact`
on an exhausted stream yields the end-of-file I/O error, modelled by
`Error.IoErr`.  The caller's payload buffer is a `List Nat` to which the
decoder appends.  Machine integers (`u64`) are modelled as `Nat` with the
explicit bound `U64SIZE = 2 ^ 64`; `checked_mul` / `checked_add` fail
exactly when the mathematical result reaches `U64SIZE`.
-/

namespace Garlic

/-- Error type of the decoder (`enum Error` in lib.rs).  `IoErr` stands for
`Error::Io(..)`: the only I/O failure a pure list-stream can produce is the
unexpected-end-of-file error of `read_exact`.  `SyntaxErr` stands for
`Error::Syntax`. -/
inductive Error where
  | IoErr : Error
  | Incomplete : Error
  | Length : Nat → Error
  | Overflow : Error
  | SyntaxErr : Error
deriving DecidableEq, Repr

/-- `2 ^ 64`, the first value that does not fit in a `u64`. -/
def U64SIZE : Nat := 2 ^ 64

/-- `Result<u64, Error>`: the value returned by the decoding functions. -/
inductive DResult where
  | ok : Nat → DResult
  | error : Error → DResult
deriving DecidableEq, Repr

/-- Result of `decode_len`: the returned value together with the bytes of
the stream that remain unread after the call. -/
structure LenOut where
  result : DResult
  rest : List Nat
deriving DecidableEq, Repr

/-- Result of `decode`: the returned value, the bytes of the stream that
remain unread, and the contents of the caller's buffer after the call. -/
structure DecodeOut where
  result : DResult
  rest : List Nat
  buf : List Nat
deriving DecidableEq, Repr

/-- `b'0' <= b && b <= b'9'`, the guard of the digit arm of the `match`
in `decode_len`. -/
def isDigitByte (b : Nat) : Bool :=
  decide (48 ≤ b) && decide (b ≤ 57)

/-- The loop of `decode_len` (lib.rs lines 49-60), with the `len`
accumulator made explicit.  Each iteration does `r.read_exact` of one
byte: on an empty stream this fails with the end-of-file I/O error.  A
digit byte updates `len` by `checked_mul(10)` then `checked_add(digit)`,
each failing with `Overflow` when the result would reach `2 ^ 64`.  A
colon (byte 58) returns the accumulated length; any other byte fails
with `Error::Syntax`.  In every case the byte just read has been
consumed. -/
def decode_len_aux (len : Nat) : List Nat → LenOut
  | [] => ⟨.error .IoErr, []⟩
  | b :: rest =>
    if isDigitByte b then
      let digit := b - 48
      if U64SIZE ≤ len * 10 then ⟨.error .Overflow, rest⟩
      else if U64SIZE ≤ len * 10 + digit then ⟨.error .Overflow, rest⟩
      else decode_len_aux (len * 10 + digit) rest
    else if b = 58 then ⟨.ok len, rest⟩
    else ⟨.error .SyntaxErr, rest⟩

/-- `decode_len` (lib.rs lines 44-61): scan the length field starting
from the accumulator `0u64`. -/
def decode_len (s : List Nat) : LenOut :=
  decode_len_aux 0 s

/-- `decode` (lib.rs lines 19-42).  First `decode_len` runs; its failure
propagates with the buffer untouched.  If the predicate `f` rejects the
parsed length, the call fails with `Length(len)`, again with the buffer
untouched.  Otherwise `r.take(len).read_to_end(buf)` appends
`min len s1.length` bytes — `s1.take len` — to the buffer; if fewer than
`len` were available the call fails with `Incomplete`.  Finally one more
byte is read (`read_exact`, so end of stream is an I/O error) and checked
against the comma (byte 44). -/
def decode (s : List Nat) (f : Nat → Bool) (buf : List Nat) : DecodeOut :=
  match decode_len s with
  | ⟨.error e, s1⟩ => ⟨.error e, s1, buf⟩
  | ⟨.ok len, s1⟩ =>
    if f len then
      let payload := s1.take len
      let s2 := s1.drop len
      if payload.length ≠ len then ⟨.error .Incomplete, s2, buf ++ payload⟩
      else
        match s2 with
        | [] => ⟨.error .IoErr, [], buf ++ payload⟩
        | c :: s3 =>
          if c = 44 then ⟨.ok len, s3, buf ++ payload⟩
          else ⟨.error .SyntaxErr, s3, buf ++ payload⟩
    else ⟨.error (.Length len), s1, buf⟩

/-- Big-endian ASCII decimal digits of `n`, accumulator style, with a
structural fuel argument (`n ≤ fuel` makes the fuel sufficient).  Used to
spell out the wire format `length ":" payload ","` of spec section 6. -/
def decimalAux : Nat → Nat → List Nat → List Nat
  | 0, _, acc => acc
  | fuel + 1, n, acc =>
    if n = 0 then acc else decimalAux fuel (n / 10) ((n % 10 + 48) :: acc)

/-- The ASCII decimal representation of `n`, without sign or leading
zeros (`"0"` for zero), as in the wire format of spec section 6. -/
def decimal (n : Nat) : List Nat :=
  if n = 0 then [48] else decimalAux n n []

/-- The netstring encoding `decimal (p.length) ++ ":" ++ p ++ ","` of a
payload `p` (spec section 6, wire format). -/
def encode (p : List Nat) : List Nat :=
  decimal p.length ++ (58 :: (p ++ [44]))

/-- The value denoted by a list of ASCII digit bytes read after the
accumulator `a`, folding `x * 10 + digit` left to right exactly as the
scanner does. -/
def digitVal (a : Nat) (ds : List Nat) : Nat :=
  ds.foldl (fun x d => x * 10 + (d - 48)) a

/-! Sanity checks: the test vectors of `mod tests` in lib.rs. -/

theorem test_vector_empty :
    decode [] (fun _ => true) [] = ⟨.error .IoErr, [], []⟩ := by decide

theorem test_vector_1A :
    decode [49, 58, 65] (fun _ => true) [] = ⟨.error .IoErr, [], [65]⟩ := by
  decide

theorem test_vector_1AB :
    decode [49, 58, 65, 66, 44] (fun _ => true) []
      = ⟨.error .SyntaxErr, [44], [65]⟩ := by decide

theorem test_vector_1comma :
    decode [49, 58, 44] (fun _ => true) [] = ⟨.error .IoErr, [], [44]⟩ := by
  decide

theorem test_vector_A1 :
    decode [65, 58, 49, 44] (fun _ => true) []
      = ⟨.error .SyntaxErr, [58, 49, 44], []⟩ := by decide

theorem test_vector_0 :
    decode [48, 58, 44] (fun _ => true) [] = ⟨.ok 0, [], []⟩ := by decide

theorem test_vector_1A_ok :
    decode [49, 58, 65, 44] (fun _ => true) [] = ⟨.ok 1, [], [65]⟩ := by
  decide

theorem test_vector_2ABC :
    decode [50, 58, 65, 66, 44, 67] (fun _ => true) []
      = ⟨.ok 2, [67], [65, 66]⟩ := by decide

theorem test_vector_hello :
    decode ([49, 51, 58] ++ [72, 101, 108, 108, 111, 44, 32, 119, 111, 114,
        108, 100, 33] ++ [44, 88]) (fun _ => true) []
      = ⟨.ok 13, [88], [72, 101, 108, 108, 111, 44, 32, 119, 111, 114, 108,
        100, 33]⟩ := by decide

/-! Basic facts about `digitVal`. -/

theorem digitVal_nil (a : Nat) : digitVal a [] = a := rfl

theorem digitVal_cons (a d : Nat) (ds : List Nat) :
    digitVal a (d :: ds) = digitVal (a * 10 + (d - 48)) ds := rfl

theorem digitVal_append (a : Nat) (ds es : List Nat) :
    digitVal a (ds ++ es) = digitVal (digitVal a ds) es := by
  simp [digitVal, List.foldl_append]

theorem le_digitVal (a : Nat) (ds : List Nat) : a ≤ digitVal a ds := by
  induction ds generalizing a with
  | nil => exact Nat.le_refl a
  | cons d ds ih =>
    have h1 : a ≤ a * 10 + (d - 48) := by omega
    exact Nat.le_trans h1 (ih (a * 10 + (d - 48)))

/-! The length scanner on streams that start with a block of digits. -/

/-- A digit step of the scanner that passes both overflow checks. -/
theorem decode_len_aux_digit (a d : Nat) (rest : List Nat)
    (hd : isDigitByte d = true) (hlt : a * 10 + (d - 48) < U64SIZE) :
    decode_len_aux a (d :: rest) = decode_len_aux (a * 10 + (d - 48)) rest := by
  simp only [decode_len_aux, hd, if_true]
  rw [if_neg (by omega), if_neg (by omega)]

/-- Scanning a block of digits followed by a colon succeeds and returns
the accumulated value, leaving the stream just past the colon. -/
theorem scan_colon : ∀ (ds : List Nat) (a : Nat) (t : List Nat),
    (∀ d ∈ ds, isDigitByte d = true) → digitVal a ds < U64SIZE →
    decode_len_aux a (ds ++ (58 :: t)) = ⟨.ok (digitVal a ds), t⟩ := by
  intro ds
  induction ds with
  | nil =>
    intro a t _ _
    simp [decode_len_aux, isDigitByte, digitVal]
  | cons d ds ih =>
    intro a t h1 h2
    have hd : isDigitByte d = true := h1 d (List.mem_cons_self d ds)
    have hstep : a * 10 + (d - 48) ≤ digitVal a (d :: ds) := by
      rw [digitVal_cons]; exact le_digitVal _ _
    rw [List.cons_append,
      decode_len_aux_digit a d _ hd (lt_of_le_of_lt hstep h2), digitVal_cons]
    exact ih (a * 10 + (d - 48)) t
      (fun x hx => h1 x (List.mem_cons_of_mem d hx))
      (by rwa [digitVal_cons] at h2)

/-- Scanning a block of digits followed by a byte that is neither a
digit nor a colon fails with `Syntax`, leaving the stream just past the
offending byte. -/
theorem scan_bad : ∀ (ds : List Nat) (a : Nat) (b : Nat) (t : List Nat),
    (∀ d ∈ ds, isDigitByte d = true) → digitVal a ds < U64SIZE →
    isDigitByte b = false → b ≠ 58 →
    decode_len_aux a (ds ++ (b :: t)) = ⟨.error .SyntaxErr, t⟩ := by
  intro ds
  induction ds with
  | nil =>
    intro a b t _ _ hb hb58
    simp [decode_len_aux, hb, hb58]
  | cons d ds ih =>
    intro a b t h1 h2 hb hb58
    have hd : isDigitByte d = true := h1 d (List.mem_cons_self d ds)
    have hstep : a * 10 + (d - 48) ≤ digitVal a (d :: ds) := by
      rw [digitVal_cons]; exact le_digitVal _ _
    rw [List.cons_append,
      decode_len_aux_digit a d _ hd (lt_of_le_of_lt hstep h2)]
    exact ih (a * 10 + (d - 48)) b t
      (fun x hx => h1 x (List.mem_cons_of_mem d hx))
      (by rwa [digitVal_cons] at h2) hb hb58

/-- Scanning a stream that is a block of digits and nothing else fails
with the end-of-file I/O error, the stream fully consumed. -/
theorem scan_eos : ∀ (ds : List Nat) (a : Nat),
    (∀ d ∈ ds, isDigitByte d = true) → digitVal a ds < U64SIZE →
    decode_len_aux a ds = ⟨.error .IoErr, []⟩ := by
  intro ds
  induction ds with
  | nil => intro a _ _; rfl
  | cons d ds ih =>
    intro a h1 h2
    have hd : isDigitByte d = true := h1 d (List.mem_cons_self d ds)
    have hstep : a * 10 + (d - 48) ≤ digitVal a (d :: ds) := by
      rw [digitVal_cons]; exact le_digitVal _ _
    rw [decode_len_aux_digit a d _ hd (lt_of_le_of_lt hstep h2)]
    exact ih (a * 10 + (d - 48))
      (fun x hx => h1 x (List.mem_cons_of_mem d hx))
      (by rwa [digitVal_cons] at h2)

/-- Scanning a block of digits whose accumulated value is still in
range, followed by one more digit that pushes `len * 10 + digit` to
`2 ^ 64` or beyond, fails with `Overflow`; the offending digit has been
consumed and the rest of the stream is unread. -/
theorem scan_overflow : ∀ (ds : List Nat) (a : Nat) (d : Nat) (t : List Nat),
    (∀ x ∈ ds, isDigitByte x = true) → digitVal a ds < U64SIZE →
    isDigitByte d = true → U64SIZE ≤ digitVal a ds * 10 + (d - 48) →
    decode_len_aux a (ds ++ (d :: t)) = ⟨.error .Overflow, t⟩ := by
  intro ds
  induction ds with
  | nil =>
    intro a d t _ _ hd hov
    simp only [digitVal_nil] at hov
    simp only [List.nil_append, decode_len_aux, hd, if_true]
    by_cases hmul : U64SIZE ≤ a * 10
    · rw [if_pos hmul]
    · rw [if_neg hmul, if_pos (by omega)]
  | cons d0 ds ih =>
    intro a d t h1 h2 hd hov
    have hd0 : isDigitByte d0 = true := h1 d0 (List.mem_cons_self d0 ds)
    have hstep : a * 10 + (d0 - 48) ≤ digitVal a (d0 :: ds) := by
      rw [digitVal_cons]; exact le_digitVal _ _
    rw [List.cons_append,
      decode_len_aux_digit a d0 _ hd0 (lt_of_le_of_lt hstep h2)]
    exact ih (a * 10 + (d0 - 48)) d t
      (fun x hx => h1 x (List.mem_cons_of_mem d0 hx))
      (by rwa [digitVal_cons] at h2) hd
      (by rwa [digitVal_cons] at hov)

/-- Exhaustive case analysis of the scanner: every stream splits as a
maximal in-range digit prefix followed by either nothing (end of
stream), an overflowing digit, a colon, or a byte that is neither digit
nor colon, and the scanner's outcome is determined by that split. -/
theorem scan_cases : ∀ (s : List Nat) (a : Nat), a < U64SIZE →
    ((∀ d ∈ s, isDigitByte d = true) ∧ digitVal a s < U64SIZE ∧
      decode_len_aux a s = ⟨.error .IoErr, []⟩)
    ∨ (∃ ds b t, s = ds ++ (b :: t) ∧ (∀ d ∈ ds, isDigitByte d = true) ∧
        digitVal a ds < U64SIZE ∧
        ((isDigitByte b = true ∧ U64SIZE ≤ digitVal a ds * 10 + (b - 48) ∧
            decode_len_aux a s = ⟨.error .Overflow, t⟩)
          ∨ (b = 58 ∧ decode_len_aux a s = ⟨.ok (digitVal a ds), t⟩)
          ∨ (isDigitByte b = false ∧ b ≠ 58 ∧
              decode_len_aux a s = ⟨.error .SyntaxErr, t⟩))) := by
  intro s
  induction s with
  | nil =>
    intro a ha
    exact Or.inl ⟨by simp, by simpa [digitVal] using ha, rfl⟩
  | cons b s ih =>
    intro a ha
    by_cases hb : isDigitByte b = true
    · by_cases hov : U64SIZE ≤ a * 10 + (b - 48)
      · refine Or.inr ⟨[], b, s, by simp, by simp, by simpa [digitVal] using ha,
          Or.inl ⟨hb, by simpa [digitVal] using hov, ?_⟩⟩
        have := scan_overflow [] a b s (by simp) (by simpa [digitVal] using ha)
          hb (by simpa [digitVal] using hov)
        simpa using this
      · have ha' : a * 10 + (b - 48) < U64SIZE := by omega
        have hstep := decode_len_aux_digit a b s hb ha'
        rcases ih (a * 10 + (b - 48)) ha' with ⟨hall, hval, hres⟩ | h
        · refine Or.inl ⟨?_, by simpa [digitVal_cons] using hval,
            by rw [hstep]; exact hres⟩
          intro d hd
          rcases List.mem_cons.mp hd with h | h
          · rw [h]; exact hb
          · exact hall d h
        · obtain ⟨ds, b', t, hsplit, hall, hval, hcase⟩ := h
          refine Or.inr ⟨b :: ds, b', t, by simp [hsplit], ?_, ?_, ?_⟩
          · intro d hd
            rcases List.mem_cons.mp hd with h | h
            · rw [h]; exact hb
            · exact hall d h
          · simpa [digitVal_cons] using hval
          · rcases hcase with ⟨h1, h2, h3⟩ | ⟨h1, h2⟩ | ⟨h1, h2, h3⟩
            · exact Or.inl ⟨h1, by simpa [digitVal_cons] using h2,
                by rw [hstep]; exact h3⟩
            · refine Or.inr (Or.inl ⟨h1, ?_⟩)
              rw [hstep, digitVal_cons]
              exact h2
            · exact Or.inr (Or.inr ⟨h1, h2, by rw [hstep]; exact h3⟩)
    · by_cases hb58 : b = 58
      · subst hb58
        exact Or.inr ⟨[], 58, s, by simp, by simp,
          by simpa [digitVal] using ha,
          Or.inr (Or.inl ⟨rfl, by simp [decode_len_aux, hb, digitVal]⟩)⟩
      · exact Or.inr ⟨[], b, s, by simp, by simp,
          by simpa [digitVal] using ha,
          Or.inr (Or.inr ⟨by simpa using hb, hb58,
            by simp [decode_len_aux, hb, hb58]⟩)⟩

/-! The decimal representation used by the wire-format encoding. -/

theorem decimalAux_acc : ∀ (fuel n : Nat) (acc : List Nat),
    decimalAux fuel n acc = decimalAux fuel n [] ++ acc := by
  intro fuel
  induction fuel with
  | zero => intro n acc; rfl
  | succ fuel ih =>
    intro n acc
    by_cases hn : n = 0
    · simp [decimalAux, hn]
    · simp only [decimalAux, hn, if_false]
      rw [ih (n / 10) ((n % 10 + 48) :: []), ih (n / 10) ((n % 10 + 48) :: acc),
        List.append_assoc]
      rfl

theorem decimalAux_all_digits : ∀ (fuel n : Nat) (acc : List Nat),
    (∀ d ∈ acc, isDigitByte d = true) →
    ∀ d ∈ decimalAux fuel n acc, isDigitByte d = true := by
  intro fuel
  induction fuel with
  | zero => intro n acc hacc; exact hacc
  | succ fuel ih =>
    intro n acc hacc
    by_cases hn : n = 0
    · simpa [decimalAux, hn] using hacc
    · simp only [decimalAux, hn, if_false]
      refine ih (n / 10) ((n % 10 + 48) :: acc) ?_
      intro d hd
      rcases List.mem_cons.mp hd with h | h
      · rw [h]
        have : n % 10 < 10 := Nat.mod_lt n (by omega)
        simp only [isDigitByte, Bool.and_eq_true, decide_eq_true_eq]
        omega
      · exact hacc d h

theorem decimal_all_digits (n : Nat) :
    ∀ d ∈ decimal n, isDigitByte d = true := by
  by_cases hn : n = 0
  · simp [decimal, hn, isDigitByte]
  · simp only [decimal, hn, if_false]
    exact decimalAux_all_digits n n [] (by simp)

theorem digitVal_decimalAux : ∀ (fuel n : Nat), n ≤ fuel →
    digitVal 0 (decimalAux fuel n []) = n := by
  intro fuel
  induction fuel with
  | zero => intro n hn; interval_cases n; rfl
  | succ fuel ih =>
    intro n hn
    by_cases h0 : n = 0
    · simp [decimalAux, h0, digitVal]
    · simp only [decimalAux, h0, if_false]
      rw [decimalAux_acc fuel (n / 10) ((n % 10 + 48) :: []), digitVal_append,
        ih (n / 10) (by omega)]
      simp only [digitVal_cons, digitVal_nil]
      omega

theorem digitVal_decimal (n : Nat) : digitVal 0 (decimal n) = n := by
  by_cases hn : n = 0
  · simp [decimal, hn, digitVal]
  · simp only [decimal, hn, if_false]
    exact digitVal_decimalAux n n (Nat.le_refl n)

/-- Scanning a canonically encoded length field: the decimal digits of
`n` followed by a colon yield `n` with the stream just past the colon. -/
theorem decode_len_canonical (n : Nat) (t : List Nat) (hn : n < U64SIZE) :
    decode_len (decimal n ++ (58 :: t)) = ⟨.ok n, t⟩ := by
  unfold decode_len
  rw [scan_colon (decimal n) 0 t (decimal_all_digits n)
    (by rw [digitVal_decimal]; exact hn), digitVal_decimal]

/-! Unfolding `decode` case by case. -/

/-- Failures of `decode_len` propagate through `decode` via the `?`
operator: same error, stream as the scanner left it, buffer untouched. -/
theorem decode_propagate (s : List Nat) (f : Nat → Bool) (buf : List Nat)
    (e : Error) (s1 : List Nat) (h : decode_len s = ⟨.error e, s1⟩) :
    decode s f buf = ⟨.error e, s1, buf⟩ := by
  simp [decode, h]

/-- A rejected length fails with `Length(len)`: stream just past the
colon, buffer untouched. -/
theorem decode_reject (s : List Nat) (f : Nat → Bool) (buf : List Nat)
    (len : Nat) (s1 : List Nat) (h : decode_len s = ⟨.ok len, s1⟩)
    (hf : f len = false) :
    decode s f buf = ⟨.error (.Length len), s1, buf⟩ := by
  simp [decode, h, hf]

/-- Accepted length, but fewer than `len` bytes remain: `Incomplete`,
with every available byte consumed and appended to the buffer. -/
theorem decode_incomplete (s : List Nat) (f : Nat → Bool) (buf : List Nat)
    (len : Nat) (s1 : List Nat) (h : decode_len s = ⟨.ok len, s1⟩)
    (hf : f len = true) (hshort : s1.length < len) :
    decode s f buf = ⟨.error .Incomplete, [], buf ++ s1⟩ := by
  simp only [decode, h, hf, if_true]
  rw [if_pos (by simp only [List.length_take]; omega),
    List.drop_eq_nil_of_le (by omega), List.take_of_length_le (by omega)]

/-- Accepted length, payload read complete, but the stream ends before
the terminator byte: the end-of-file I/O error, with the payload already
in the buffer. -/
theorem decode_term_eos (s : List Nat) (f : Nat → Bool) (buf : List Nat)
    (len : Nat) (s1 : List Nat) (h : decode_len s = ⟨.ok len, s1⟩)
    (hf : f len = true) (hav : s1.length = len) :
    decode s f buf = ⟨.error .IoErr, [], buf ++ s1⟩ := by
  simp only [decode, h, hf, if_true]
  rw [if_neg (by simp only [List.length_take]; omega),
    List.drop_eq_nil_of_le (by omega), List.take_of_length_le (by omega)]

/-- Accepted length, payload read complete, terminator byte available:
the byte is consumed and checked against the comma. -/
theorem decode_term_check (s : List Nat) (f : Nat → Bool) (buf : List Nat)
    (len : Nat) (s1 : List Nat) (c : Nat) (t : List Nat)
    (h : decode_len s = ⟨.ok len, s1⟩) (hf : f len = true)
    (hdrop : s1.drop len = c :: t) :
    decode s f buf =
      if c = 44 then ⟨.ok len, t, buf ++ s1.take len⟩
      else ⟨.error .SyntaxErr, t, buf ++ s1.take len⟩ := by
  have hlen : len ≤ s1.length := by
    by_contra hlt
    rw [List.drop_eq_nil_of_le (by omega)] at hdrop
    exact List.noConfusion hdrop
  simp only [decode, h, hf, if_true]
  rw [if_neg (by simp only [List.length_take]; omega), hdrop]

/-- After the predicate accepts, the buffer always ends up holding the
old contents followed by the first `min len s1.length` stream bytes,
whatever the outcome. -/
theorem decode_buf_accept (s : List Nat) (f : Nat → Bool) (buf : List Nat)
    (len : Nat) (s1 : List Nat) (h : decode_len s = ⟨.ok len, s1⟩)
    (hf : f len = true) :
    (decode s f buf).buf = buf ++ s1.take len := by
  rcases Nat.lt_or_ge s1.length len with hlt | hge
  · rw [decode_incomplete s f buf len s1 h hf hlt,
      List.take_of_length_le (le_of_lt hlt)]
  · cases hdrop : s1.drop len with
    | nil =>
      have hlen : s1.length = len := by
        have := congrArg List.length hdrop
        simp only [List.length_drop, List.length_nil] at this
        omega
      rw [decode_term_eos s f buf len s1 h hf hlen,
        List.take_of_length_le (by omega)]
    | cons c t =>
      rw [decode_term_check s f buf len s1 c t h hf hdrop]
      by_cases hc : c = 44 <;> simp [hc]

/-- Decoding a canonically encoded record with trailing data: the
payload lands in the buffer, the trailing bytes stay in the stream. -/
theorem decode_canonical (p t : List Nat) (f : Nat → Bool) (buf : List Nat)
    (hn : p.length < U64SIZE) (hf : f p.length = true) :
    decode (decimal p.length ++ (58 :: (p ++ (44 :: t)))) f buf
      = ⟨.ok p.length, t, buf ++ p⟩ := by
  have hlen := decode_len_canonical p.length (p ++ (44 :: t)) hn
  have hdrop : (p ++ (44 :: t)).drop p.length = 44 :: t :=
    List.drop_left p (44 :: t)
  have htake : (p ++ (44 :: t)).take p.length = p :=
    List.take_left p (44 :: t)
  rw [decode_term_check _ f buf p.length _ 44 t hlen hf hdrop, if_pos rfl,
    htake]

/-! Bounds on consumption, for termination-style properties. -/

theorem decode_len_aux_rest_le : ∀ (s : List Nat) (a : Nat),
    (decode_len_aux a s).rest.length ≤ s.length := by
  intro s
  induction s with
  | nil => intro a; simp [decode_len_aux]
  | cons b rest ih =>
    intro a
    by_cases hb : isDigitByte b = true
    · simp only [decode_len_aux, hb, if_true]
      split_ifs with h1 h2
      · simp
      · simp
      · exact Nat.le_trans (ih _) (by simp)
    · simp only [decode_len_aux]
      rw [if_neg hb]
      split_ifs with h1 <;> simp

theorem decode_rest_le (s : List Nat) (f : Nat → Bool) (buf : List Nat) :
    (decode s f buf).rest.length ≤ s.length := by
  have hscan0 : (decode_len s).rest.length ≤ s.length :=
    decode_len_aux_rest_le s 0
  rcases hres : decode_len s with ⟨res, s1⟩
  rw [hres] at hscan0
  have hscan : s1.length ≤ s.length := by simpa using hscan0
  cases res with
  | error e => rw [decode_propagate s f buf e s1 hres]; exact hscan
  | ok len =>
    by_cases hf : f len = true
    · rcases Nat.lt_or_ge s1.length len with hlt | hge
      · rw [decode_incomplete s f buf len s1 hres hf hlt]; simp
      · cases hdrop : s1.drop len with
        | nil => rw [decode_term_eos s f buf len s1 hres hf ?_]; · simp
                 have := congrArg List.length hdrop
                 simp only [List.length_drop, List.length_nil] at this
                 omega
        | cons c t =>
          have hlt : t.length < s1.length := by
            have := congrArg List.length hdrop
            simp only [List.length_drop, List.length_cons] at this
            omega
          rw [decode_term_check s f buf len s1 c t hres hf hdrop]
          by_cases hc : c = 44 <;> simp only [hc, if_true, if_false] <;> omega
    · rw [decode_reject s f buf len s1 hres (by simpa using hf)]
      exact hscan

theorem digitVal_replicate_zero : ∀ k : Nat,
    digitVal 0 (List.replicate k 48) = 0 := by
  intro k
  induction k with
  | zero => rfl
  | succ k ih => simpa [List.replicate_succ, digitVal_cons] using ih

/-! The claims. -/

/-- C1: round-trip law.  For every payload `p` (whose length fits in a
`u64`, as any Rust byte slice's does), decoding the encoding
`decimal (p.length) ++ ":" ++ p ++ ","` — the payload may contain any
byte, including `:` and `,` — with an always-accepting predicate and an
initially empty buffer succeeds, returns `p.length`, consumes the whole
record and leaves exactly `p` in the buffer. -/
theorem C1_round_trip (p : List Nat) (h : p.length < U64SIZE) :
    decode (encode p) (fun _ => true) [] = ⟨.ok p.length, [], p⟩ := by
  simpa [encode] using decode_canonical p [] (fun _ => true) [] h rfl

/-- Witness for C1 at the payload `[58, 44]`, i.e. the two bytes `:`
and `,`. -/
theorem C1_round_trip_witness :
    ([58, 44] : List Nat).length < U64SIZE ∧
      decode (encode [58, 44]) (fun _ => true) [] = ⟨.ok 2, [], [58, 44]⟩ :=
  ⟨by decide, C1_round_trip [58, 44] (by decide)⟩

/-- C2 counterexample: the stream `"00:,"` decodes successfully with
parsed length `0`, consuming all `4` bytes, while
`len (decimal 0) + 1 + 0 + 1 = 3`: on inputs whose length field has
redundant leading zeros the consumed count is not determined by the
parsed length alone, so the claim as stated fails. -/
theorem C2_counterexample :
    decode [48, 48, 58, 44] (fun _ => true) [] = ⟨.ok 0, [], []⟩ ∧
      ([48, 48, 58, 44] : List Nat).length = 4 ∧
      (decimal 0).length + 1 + 0 + 1 = 3 := by
  exact ⟨by decide, by decide, by decide⟩

/-- C2 (amended): on every successful decode of a canonically encoded
record — the stream starts with `decimal n` itself, followed by the
colon, an `n`-byte payload and the comma — exactly
`len (decimal n) + 1 + n + 1` bytes are consumed, the trailing bytes
are left unread, and the parsed length is returned. -/
theorem C2_canonical_consumption (p t : List Nat) (f : Nat → Bool)
    (buf : List Nat) (hn : p.length < U64SIZE) (hf : f p.length = true) :
    decode (decimal p.length ++ (58 :: (p ++ (44 :: t)))) f buf
        = ⟨.ok p.length, t, buf ++ p⟩ ∧
      (decimal p.length ++ (58 :: (p ++ (44 :: t)))).length
        = ((decimal p.length).length + 1 + p.length + 1) + t.length := by
  refine ⟨decode_canonical p t f buf hn hf, ?_⟩
  simp only [List.length_append, List.length_cons]
  omega

/-- Witness for C2 at the record `"2:AB,C"`. -/
theorem C2_canonical_consumption_witness :
    decode (decimal ([65, 66] : List Nat).length
          ++ (58 :: ([65, 66] ++ (44 :: [67])))) (fun _ => true) []
        = ⟨.ok 2, [67], [65, 66]⟩ ∧
      (decimal ([65, 66] : List Nat).length
          ++ (58 :: ([65, 66] ++ (44 :: [67])))).length
        = ((decimal ([65, 66] : List Nat).length).length + 1 + 2 + 1) + 1 :=
  C2_canonical_consumption [65, 66] [67] (fun _ => true) [] (by decide) rfl

/-- C3: whenever the length field parses to `len` and the predicate
rejects `len`, `decode` fails with `Length len`, the buffer is exactly
as it was, and the stream is exactly where the scanner left it — one
byte past the colon, no payload byte read. -/
theorem C3_length_reject (s : List Nat) (f : Nat → Bool) (buf : List Nat)
    (len : Nat) (s1 : List Nat) (h : decode_len s = ⟨.ok len, s1⟩)
    (hf : f len = false) :
    decode s f buf = ⟨.error (.Length len), s1, buf⟩ :=
  decode_reject s f buf len s1 h hf

/-- Witness for C3 at the stream `"4:c"` with an always-rejecting
predicate and a non-empty starting buffer. -/
theorem C3_length_reject_witness :
    decode_len [52, 58, 99] = ⟨.ok 4, [99]⟩ ∧
      decode [52, 58, 99] (fun _ => false) [7]
        = ⟨.error (.Length 4), [99], [7]⟩ :=
  ⟨by decide, C3_length_reject [52, 58, 99] (fun _ => false) [7] 4 [99]
    (by decide) rfl⟩

/-- C4: checked length accumulation.  A digit byte `d` whose update
`a * 10 + digit` would reach `2 ^ 64` makes the scanner fail with
`Overflow` immediately — whether the multiply or the add overflows —
with the stream just past the offending digit; and any scanner failure
(so in particular `Overflow`) reaches the caller of `decode` before any
payload byte is read, the buffer untouched. -/
theorem C4_overflow_checked (a d : Nat) (rest : List Nat) (s : List Nat)
    (f : Nat → Bool) (buf : List Nat) (s1 : List Nat)
    (hd : isDigitByte d = true) (hov : U64SIZE ≤ a * 10 + (d - 48))
    (hs : decode_len s = ⟨.error .Overflow, s1⟩) :
    decode_len_aux a (d :: rest) = ⟨.error .Overflow, rest⟩ ∧
      decode s f buf = ⟨.error .Overflow, s1, buf⟩ := by
  constructor
  · simp only [decode_len_aux, hd, if_true]
    by_cases hmul : U64SIZE ≤ a * 10
    · rw [if_pos hmul]
    · rw [if_neg hmul, if_pos (by omega)]
  · exact decode_propagate s f buf .Overflow s1 hs

/-- Witness for C4: the twentieth digit of `"18446744073709551616:"`
(the decimal spelling of `2 ^ 64`) overflows, leaving the colon
unread. -/
theorem C4_overflow_checked_witness :
    isDigitByte 54 = true ∧ U64SIZE ≤ 1844674407370955161 * 10 + (54 - 48) ∧
      decode_len [49, 56, 52, 52, 54, 55, 52, 52, 48, 55, 51, 55, 48, 57,
          53, 53, 49, 54, 49, 54, 58] = ⟨.error .Overflow, [58]⟩ ∧
      decode_len_aux 1844674407370955161 [54] = ⟨.error .Overflow, []⟩ ∧
      decode [49, 56, 52, 52, 54, 55, 52, 52, 48, 55, 51, 55, 48, 57,
          53, 53, 49, 54, 49, 54, 58] (fun _ => true) []
        = ⟨.error .Overflow, [58], []⟩ := by
  refine ⟨by decide, by decide, by decide, ?_, ?_⟩
  · exact (C4_overflow_checked 1844674407370955161 54 []
      [49, 56, 52, 52, 54, 55, 52, 52, 48, 55, 51, 55, 48, 57,
        53, 53, 49, 54, 49, 54, 58] (fun _ => true) [] [58]
      (by decide) (by decide) (by decide)).1
  · exact (C4_overflow_checked 1844674407370955161 54 []
      [49, 56, 52, 52, 54, 55, 52, 52, 48, 55, 51, 55, 48, 57,
        53, 53, 49, 54, 49, 54, 58] (fun _ => true) [] [58]
      (by decide) (by decide) (by decide)).2

/-- C5: once the predicate has accepted `len`, a stream holding fewer
than `len` further bytes makes `decode` fail with `Incomplete`; and in
every post-acceptance outcome the payload read is bounded: the buffer
gains exactly `s1.take len` — never more than `len` bytes — even when
more are available. -/
theorem C5_incomplete_bounded (s : List Nat) (f : Nat → Bool)
    (buf : List Nat) (len : Nat) (s1 : List Nat)
    (h : decode_len s = ⟨.ok len, s1⟩) (hf : f len = true) :
    (s1.length < len → decode s f buf = ⟨.error .Incomplete, [], buf ++ s1⟩) ∧
      (decode s f buf).buf = buf ++ s1.take len ∧
      (s1.take len).length ≤ len := by
  refine ⟨fun hlt => decode_incomplete s f buf len s1 h hf hlt,
    decode_buf_accept s f buf len s1 h hf, ?_⟩
  simp only [List.length_take]
  omega

/-- Witness for C5 at the truncated stream `"3:A"`. -/
theorem C5_incomplete_bounded_witness :
    (([65] : List Nat).length < 3 →
        decode [51, 58, 65] (fun _ => true) []
          = ⟨.error .Incomplete, [], [] ++ [65]⟩) ∧
      (decode [51, 58, 65] (fun _ => true) []).buf
        = [] ++ ([65] : List Nat).take 3 ∧
      (([65] : List Nat).take 3).length ≤ 3 :=
  C5_incomplete_bounded [51, 58, 65] (fun _ => true) [] 3 [65] (by decide) rfl

/-- C6: `decode` fails with `Syntax` exactly when either the scanner,
after an in-range block of digits, reads a byte that is neither an
ASCII digit nor the colon, or the single byte read immediately after a
complete payload read is not the comma. -/
theorem C6_syntax_iff (s : List Nat) (f : Nat → Bool) (buf : List Nat) :
    (decode s f buf).result = .error .SyntaxErr ↔
      ((∃ ds b t, s = ds ++ (b :: t) ∧ (∀ d ∈ ds, isDigitByte d = true) ∧
          digitVal 0 ds < U64SIZE ∧ isDigitByte b = false ∧ b ≠ 58)
        ∨ (∃ len s1 c t, decode_len s = ⟨.ok len, s1⟩ ∧ f len = true ∧
            len ≤ s1.length ∧ s1.drop len = c :: t ∧ c ≠ 44)) := by
  constructor
  · intro hres
    rcases scan_cases s 0 (by norm_num [U64SIZE])
      with ⟨hall, hval, hio⟩ | ⟨ds, b, t, hsplit, hall, hval, hcase⟩
    · rw [decode_propagate s f buf .IoErr [] hio] at hres
      exact absurd hres (by simp)
    · rcases hcase with ⟨h1, h2, h3⟩ | ⟨h1, h2⟩ | ⟨h1, h2, h3⟩
      · rw [decode_propagate s f buf .Overflow t h3] at hres
        exact absurd hres (by simp)
      · by_cases hf : f (digitVal 0 ds) = true
        · rcases Nat.lt_or_ge t.length (digitVal 0 ds) with hlt | hge
          · rw [decode_incomplete s f buf (digitVal 0 ds) t h2 hf hlt] at hres
            exact absurd hres (by simp)
          · cases hdrop : t.drop (digitVal 0 ds) with
            | nil =>
              have heq : t.length = digitVal 0 ds := by
                have := congrArg List.length hdrop
                simp only [List.length_drop, List.length_nil] at this
                omega
              rw [decode_term_eos s f buf (digitVal 0 ds) t h2 hf heq] at hres
              exact absurd hres (by simp)
            | cons c t2 =>
              by_cases hc : c = 44
              · rw [decode_term_check s f buf (digitVal 0 ds) t c t2 h2 hf
                  hdrop, if_pos hc] at hres
                exact absurd hres (by simp)
              · exact Or.inr ⟨digitVal 0 ds, t, c, t2, h2, hf, hge, hdrop, hc⟩
        · rw [decode_reject s f buf (digitVal 0 ds) t h2
            (by simpa using hf)] at hres
          exact absurd hres (by simp)
      · exact Or.inl ⟨ds, b, t, hsplit, hall, hval, h1, h2⟩
  · intro h
    rcases h with ⟨ds, b, t, hsplit, hall, hval, hb, hb58⟩
      | ⟨len, s1, c, t, hlen, hf, hle, hdrop, hc⟩
    · have hscan : decode_len s = ⟨.error .SyntaxErr, t⟩ := by
        rw [hsplit]
        exact scan_bad ds 0 b t hall hval hb hb58
      rw [decode_propagate s f buf .SyntaxErr t hscan]
    · rw [decode_term_check s f buf len s1 c t hlen hf hdrop, if_neg hc]

/-- C7: a required single-byte read that hits end of stream surfaces as
an `Io` failure: when the stream is nothing but an in-range run of
digits (in particular the empty stream), and when the stream ends right
after a complete payload read, before the terminator byte. -/
theorem C7_io_on_eof (s s' : List Nat) (f f' : Nat → Bool)
    (buf buf' : List Nat) (len : Nat) (s1 : List Nat)
    (hall : ∀ d ∈ s, isDigitByte d = true) (hval : digitVal 0 s < U64SIZE)
    (h : decode_len s' = ⟨.ok len, s1⟩) (hf : f' len = true)
    (hav : s1.length = len) :
    decode s f buf = ⟨.error .IoErr, [], buf⟩ ∧
      decode s' f' buf' = ⟨.error .IoErr, [], buf' ++ s1⟩ :=
  ⟨decode_propagate s f buf .IoErr [] (scan_eos s 0 hall hval),
    decode_term_eos s' f' buf' len s1 h hf hav⟩

/-- Witness for C7 at the empty stream and at `"1:A"`. -/
theorem C7_io_on_eof_witness :
    decode [] (fun _ => true) [] = ⟨.error .IoErr, [], []⟩ ∧
      decode [49, 58, 65] (fun _ => true) []
        = ⟨.error .IoErr, [], [] ++ [65]⟩ :=
  C7_io_on_eof [] [49, 58, 65] (fun _ => true) (fun _ => true) [] [] 1 [65]
    (by decide) (by decide) (by decide) rfl (by decide)

/-- C8: an empty digit sequence is accepted — a stream starting with
the colon yields length `0` — there is no sign handling (`+` and `-`
fail with `Syntax` wherever a digit was expected) and no leading-zero
rejection (`"00:"` also yields `0`). -/
theorem C8_empty_digits (t : List Nat) (a : Nat) :
    decode_len (58 :: t) = ⟨.ok 0, t⟩ ∧
      decode_len_aux a (43 :: t) = ⟨.error .SyntaxErr, t⟩ ∧
      decode_len_aux a (45 :: t) = ⟨.error .SyntaxErr, t⟩ ∧
      decode_len ([48, 48] ++ (58 :: t)) = ⟨.ok 0, t⟩ := by
  refine ⟨rfl, rfl, rfl, ?_⟩
  have h := scan_colon [48, 48] 0 t (by decide) (by decide)
  simpa [decode_len] using h

/-- C9: the payload buffer is not restored on post-acceptance failure.
On `Incomplete` every available byte is already appended; on the
terminator-check failures (`Io` at end of stream, `Syntax` on a
non-comma) the full `len`-byte payload is already appended; and the
pre-acceptance failures — any scanner error, or predicate rejection —
leave the buffer exactly as it was. -/
theorem C9_non_atomic_buffer (s : List Nat) (f : Nat → Bool)
    (buf : List Nat) (len : Nat) (s1 : List Nat)
    (h : decode_len s = ⟨.ok len, s1⟩) (hf : f len = true) :
    (s1.length < len → decode s f buf = ⟨.error .Incomplete, [], buf ++ s1⟩) ∧
      (s1.length = len → decode s f buf = ⟨.error .IoErr, [], buf ++ s1⟩) ∧
      (∀ c t, s1.drop len = c :: t → c ≠ 44 →
        decode s f buf = ⟨.error .SyntaxErr, t, buf ++ s1.take len⟩ ∧
          (s1.take len).length = len) ∧
      (∀ s2 e s3 f2 buf2, decode_len s2 = ⟨.error e, s3⟩ →
        decode s2 f2 buf2 = ⟨.error e, s3, buf2⟩) ∧
      (∀ s2 len2 s3 f2 buf2, decode_len s2 = ⟨.ok len2, s3⟩ →
        f2 len2 = false →
        decode s2 f2 buf2 = ⟨.error (.Length len2), s3, buf2⟩) := by
  refine ⟨fun hlt => decode_incomplete s f buf len s1 h hf hlt,
    fun heq => decode_term_eos s f buf len s1 h hf heq,
    fun c t hdrop hc => ⟨?_, ?_⟩,
    fun s2 e s3 f2 buf2 h2 => decode_propagate s2 f2 buf2 e s3 h2,
    fun s2 len2 s3 f2 buf2 h2 hf2 => decode_reject s2 f2 buf2 len2 s3 h2 hf2⟩
  · rw [decode_term_check s f buf len s1 c t h hf hdrop, if_neg hc]
  · have hlen : len ≤ s1.length := by
      by_contra hlt
      rw [List.drop_eq_nil_of_le (by omega)] at hdrop
      exact List.noConfusion hdrop
    simp only [List.length_take]
    omega

/-- Witness for C9 at the truncated stream `"2:A"` with a non-empty
starting buffer. -/
theorem C9_non_atomic_buffer_witness :
    decode [50, 58, 65] (fun _ => true) [9]
      = ⟨.error .Incomplete, [], [9] ++ [65]⟩ :=
  (C9_non_atomic_buffer [50, 58, 65] (fun _ => true) [9] 2 [65]
    (by decide) rfl).1 (by decide)

/-- C10: `decode` terminates on every finite stream — witnessed by its
very definition as a total function over the remaining-bytes list,
where the scanning loop consumes one byte per iteration — and its
consumption is bounded: neither the scanner nor `decode` ever consumes
more bytes than the stream holds, and an arbitrarily long run of `'0'`
digits is scanned without overflow. -/
theorem C10_consumption_bounded (s : List Nat) (f : Nat → Bool)
    (buf : List Nat) (a k : Nat) :
    (decode_len_aux a s).rest.length ≤ s.length ∧
      (decode s f buf).rest.length ≤ s.length ∧
      decode_len (List.replicate k 48 ++ (58 :: [])) = ⟨.ok 0, []⟩ := by
  refine ⟨decode_len_aux_rest_le s a, decode_rest_le s f buf, ?_⟩
  have h := scan_colon (List.replicate k 48) 0 []
    (fun d hd => by rw [List.eq_of_mem_replicate hd]; decide)
    (by rw [digitVal_replicate_zero]; norm_num [U64SIZE])
  rw [digitVal_replicate_zero] at h
  simpa [decode_len] using h

end Garlic
